import Mathlib

/-!
Verification of the pagination / relation-resolution / bounded-concurrency
aggregation pipeline of the Linear workspace-snapshot scripts.

The embedded functions come from `src/src/workspaceSnapshot.ts` (`paginate`,
`mapLimit`, `isActiveProject`, `groupIssuesByProjectThenState`,
`computeActiveProjects`, `computeAssigneeLoad`) and from
`src/unnamed/part_005` / `src/unnamed/part_004` (`resolveRelation`).

Modelling conventions:
* a JS `string | null | undefined` field is an `Option String` (`null` and
  `undefined` both become `none`; where the source distinguishes them, the
  distinction is noted at the definition);
* a rejected promise / thrown error is `Except.error`;
* the `async` pagination loop is embedded with a fuel parameter (the JS loop
  has no intrinsic bound); `none` means the fuel ran out before the loop
  finished, `some r` means the loop returned `r`;
* effect traces that the claims talk about (which cursor each fetch call
  received) are carried explicitly in the state.
-/

namespace LinearSnap

/-! ## Pages and the paginator (workspaceSnapshot.ts lines 67-81)

```
async function paginate<T>(
  fetch: (after?: string | null) => Promise<{
    nodes: T[];
    pageInfo: { hasNextPage: boolean; endCursor?: string | null };
  }>
): Promise<T[]> {
  const out: T[] = [];
  let after: string | null | undefined = null;
  do {
    const page = await fetch(after);
    out.push(...page.nodes);
    after = page.pageInfo.hasNextPage ? (page.pageInfo.endCursor ?? null) : null;
  } while (after);
  return out;
}
```
-/

structure PageInfo where
  hasNextPage : Bool
  endCursor : Option String
deriving Repr, DecidableEq

structure Page (T : Type) where
  nodes : List T
  pageInfo : PageInfo
deriving Repr, DecidableEq

/-- JS truthiness of the `after` variable in `while (after)`: `null` (and
`undefined`, already collapsed to `null` by `?? null`) and the empty string
are falsy; every other string is truthy. -/
def cursorTruthy : Option String → Bool
  | none => false
  | some s => !(s == "")

/-- One run of `paginate`: the cursor each `fetch` call received, in call
order, and the value the returned promise settled with. -/
structure PagRun (T E : Type) where
  calls : List (Option String)
  result : Except E (List T)
deriving Repr

/-- The body of `paginate`'s do/while loop, with fuel.  Each iteration fetches
once (recording the cursor it passed), appends `page.nodes` to `out`, computes
`after = hasNextPage ? (endCursor ?? null) : null` and loops `while (after)`
(JS truthiness).  A rejection of `fetch` rejects the whole call. -/
def paginateGo {T E : Type} (fetch : Option String → Except E (Page T)) :
    Nat → Option String → List T → List (Option String) → Option (PagRun T E)
  | 0, _, _, _ => none
  | fuel + 1, after, out, calls =>
    match fetch after with
    | .error e => some ⟨calls ++ [after], .error e⟩
    | .ok page =>
      let out2 := out ++ page.nodes
      let after2 := if page.pageInfo.hasNextPage then page.pageInfo.endCursor else none
      if cursorTruthy after2 then paginateGo fetch fuel after2 out2 (calls ++ [after])
      else some ⟨calls ++ [after], .ok out2⟩

/-- `paginate fetch`, started as in the source with `after = null`. -/
def paginate {T E : Type} (fetch : Option String → Except E (Page T)) (fuel : Nat) :
    Option (PagRun T E) :=
  paginateGo fetch fuel none [] []

/-- `fetch` serves the finite page sequence `pages` along the cursor-threaded
trace starting at cursor `c`: every page before the last reports
`hasNextPage = true` and carries a present, non-empty `endCursor` (the cursor
of the next call), and the last page reports `hasNextPage = false`. -/
inductive Serves {T E : Type} (fetch : Option String → Except E (Page T)) :
    Option String → List (Page T) → Prop
  | last (c : Option String) (p : Page T) :
      fetch c = .ok p → p.pageInfo.hasNextPage = false → Serves fetch c [p]
  | more (c : Option String) (p : Page T) (s : String) (rest : List (Page T)) :
      fetch c = .ok p → p.pageInfo.hasNextPage = true →
      p.pageInfo.endCursor = some s → s ≠ "" →
      Serves fetch (some s) rest → Serves fetch c (p :: rest)

/-- The cursor trace the claim predicts: call 0 receives `c`, call `i + 1`
receives page `i`'s `endCursor`. -/
def traceCursors {T : Type} (c : Option String) : List (Page T) → List (Option String)
  | [] => []
  | p :: rest => c :: traceCursors p.pageInfo.endCursor rest

theorem traceCursors_length {T : Type} (c : Option String) (pages : List (Page T)) :
    (traceCursors c pages).length = pages.length := by
  induction pages generalizing c with
  | nil => rfl
  | cons p rest ih => simp [traceCursors, ih]

theorem Serves.ne_nil {T E : Type} {fetch : Option String → Except E (Page T)}
    {c : Option String} {pages : List (Page T)} (h : Serves fetch c pages) :
    pages ≠ [] := by
  cases h <;> simp

/-- Main pagination lemma: on a well-formed served page sequence the loop
terminates within `pages.length` iterations, calls `fetch` once per page at
exactly the threaded cursors, and returns the in-order concatenation of the
pages' `nodes`. -/
theorem paginateGo_serves {T E : Type} {fetch : Option String → Except E (Page T)}
    {c : Option String} {pages : List (Page T)} (h : Serves fetch c pages) :
    ∀ fuel out calls, pages.length ≤ fuel →
      paginateGo fetch fuel c out calls =
        some ⟨calls ++ traceCursors c pages, .ok (out ++ pages.flatMap (·.nodes))⟩ := by
  induction h with
  | last c p hf hlast =>
    intro fuel out calls hfuel
    match fuel, hfuel with
    | fuel + 1, _ =>
      simp only [paginateGo, hf, hlast, if_false, cursorTruthy]
      simp [traceCursors]
  | more c p s rest hf hnext hcur hs _ ih =>
    intro fuel out calls hfuel
    match fuel, hfuel with
    | fuel + 1, hfuel =>
      have hrest : rest.length ≤ fuel := by
        simpa using hfuel
      have htr : cursorTruthy (some s) = true := by
        simp [cursorTruthy, hs]
      simp only [paginateGo, hf, hnext, hcur, if_true, htr]
      rw [ih fuel (out ++ p.nodes) (calls ++ [c]) hrest]
      simp [traceCursors, hcur]

/-! ## Claim C1 -/

/-- C1 (amended): for every fetch function and every finite page sequence in
which each page before the last has `hasNextPage = true` *and a present,
non-empty `endCursor`*, and the last has `hasNextPage = false`, `paginate`
returns exactly the concatenation of the pages' `nodes` in page order, and
the result length is the total item count across pages. -/
theorem paginate_returns_concatenation {T E : Type}
    (fetch : Option String → Except E (Page T)) (pages : List (Page T))
    (h : Serves fetch none pages) (fuel : Nat) (hfuel : pages.length ≤ fuel) :
    (paginate fetch fuel).map (fun r => r.result) =
      some (.ok (pages.flatMap (·.nodes)))
    ∧ (pages.flatMap (·.nodes)).length = (pages.map (fun p => p.nodes.length)).sum := by
  constructor
  · rw [paginate, paginateGo_serves h fuel [] [] hfuel]
    simp
  · simp only [List.length_flatMap]
    rfl

/-- The two pages of C1's counterexample: the first page reports
`hasNextPage = true` but its `endCursor` is the (falsy) empty string. -/
def pageEmptyCursor : Page Nat := ⟨[1], ⟨true, some ""⟩⟩

def pageFinal : Page Nat := ⟨[2], ⟨false, none⟩⟩

/-- A fetch function serving `pageEmptyCursor` on the first call (absent
cursor) and `pageFinal` on the cursor the first page handed out. -/
def fetchEmptyCursor : Option String → Except Unit (Page Nat) :=
  fun c => match c with
  | none => .ok pageEmptyCursor
  | some _ => .ok pageFinal

/-- The cursor the claim as stated says fetch call `i` receives: call 0 an
absent cursor, call `i + 1` the `endCursor` of page `i` (when that page said
`hasNextPage`). -/
def claimCursor {T : Type} (pages : List (Page T)) : Nat → Option String
  | 0 => none
  | i + 1 =>
    match pages.get? i with
    | some p => if p.pageInfo.hasNextPage then p.pageInfo.endCursor else none
    | none => none

/-- C1 counterexample: `fetchEmptyCursor` serves the two-page sequence
`[pageEmptyCursor, pageFinal]` exactly as the claim's hypotheses demand
(first page `hasNextPage = true`, last page `hasNextPage = false`, each call
answered with the corresponding page at the claim's threaded cursor), yet
`paginate` returns `[1]`, not the full concatenation `[1, 2]`: the loop stops
at the falsy empty-string cursor. -/
theorem paginate_concatenation_counterexample :
    pageEmptyCursor.pageInfo.hasNextPage = true
    ∧ pageFinal.pageInfo.hasNextPage = false
    ∧ fetchEmptyCursor (claimCursor [pageEmptyCursor, pageFinal] 0) = .ok pageEmptyCursor
    ∧ fetchEmptyCursor (claimCursor [pageEmptyCursor, pageFinal] 1) = .ok pageFinal
    ∧ (paginate fetchEmptyCursor 2).map (fun r => r.result) = some (.ok [1])
    ∧ (paginate fetchEmptyCursor 5).map (fun r => r.result) = some (.ok [1])
    ∧ [pageEmptyCursor, pageFinal].flatMap (·.nodes) = [1, 2]
    ∧ ([1] : List Nat) ≠ [1, 2] :=
  ⟨rfl, rfl, rfl, rfl, rfl, rfl, rfl, by decide⟩

/-- A well-formed two-page exchange: page 1 holds items 1, 2 and hands out
cursor "c1"; page 2 (served at cursor "c1") holds item 3 and is last. -/
def pageOne : Page Nat := ⟨[1, 2], ⟨true, some "c1"⟩⟩

def pageTwo : Page Nat := ⟨[3], ⟨false, none⟩⟩

def fetchTwoPages : Option String → Except Unit (Page Nat) :=
  fun c => match c with
  | none => .ok pageOne
  | some _ => .ok pageTwo

theorem fetchTwoPages_serves : Serves fetchTwoPages none [pageOne, pageTwo] :=
  Serves.more none pageOne "c1" [pageTwo] rfl rfl rfl (by decide)
    (Serves.last (some "c1") pageTwo rfl rfl)

/-- C1 witness: on the concrete two-page exchange `paginate` returns
`[1, 2, 3]`, the in-order concatenation. -/
theorem paginate_returns_concatenation_witness :
    (paginate fetchTwoPages 2).map (fun r => r.result) =
      some (.ok ([pageOne, pageTwo].flatMap (·.nodes)))
    ∧ ([pageOne, pageTwo].flatMap (·.nodes)).length =
      ([pageOne, pageTwo].map (fun p => p.nodes.length)).sum :=
  paginate_returns_concatenation fetchTwoPages [pageOne, pageTwo]
    fetchTwoPages_serves 2 (by decide)

/-! ## Claim C2 -/

/-- C2 (amended): `paginate` passes an absent cursor on its first call, and
whenever a returned page has `hasNextPage = true` *and a present, non-empty
`endCursor`*, the next fetch call receives exactly that `endCursor`
(`traceCursors` is by definition `none` followed by the successive pages'
`endCursor`s); it performs exactly one call per page — stopping after the
page that reports `hasNextPage = false`. -/
theorem paginate_threads_cursors {T E : Type}
    (fetch : Option String → Except E (Page T)) (pages : List (Page T))
    (h : Serves fetch none pages) (fuel : Nat) (hfuel : pages.length ≤ fuel) :
    (paginate fetch fuel).map (fun r => r.calls) = some (traceCursors none pages)
    ∧ (traceCursors none pages).length = pages.length
    ∧ (traceCursors none pages).head? = some none := by
  refine ⟨?_, traceCursors_length none pages, ?_⟩
  · rw [paginate, paginateGo_serves h fuel [] [] hfuel]
    simp
  · match pages, h.ne_nil with
    | p :: rest, _ => rfl

/-- A fetch function that always answers with a page whose `hasNextPage` is
`true` but whose `endCursor` is absent. -/
def fetchNoCursor : Option String → Except Unit (Page Nat) :=
  fun _ => .ok ⟨[1], ⟨true, none⟩⟩

/-- C2 counterexample: the page returned by the (single) fetch call reports
`hasNextPage = true`, yet `paginate` performs no further call and terminates
— its call trace is exactly `[none]` — because the absent `endCursor` makes
`after` falsy.  The claim as stated says it stops only on
`hasNextPage = false`. -/
theorem paginate_threads_cursors_counterexample :
    (fetchNoCursor none).map (fun p => p.pageInfo.hasNextPage) = .ok true
    ∧ (paginate fetchNoCursor 5).map (fun r => r.calls) = some [none]
    ∧ (paginate fetchNoCursor 5).map (fun r => r.calls.length) = some 1 :=
  ⟨rfl, rfl, rfl⟩

/-- C2 witness: on the concrete two-page exchange the calls are exactly
`[none, some "c1"]` — absent first, then page 1's `endCursor`. -/
theorem paginate_threads_cursors_witness :
    (paginate fetchTwoPages 2).map (fun r => r.calls) =
      some (traceCursors none [pageOne, pageTwo])
    ∧ (traceCursors (none : Option String) [pageOne, pageTwo]).length =
      ([pageOne, pageTwo] : List (Page Nat)).length
    ∧ (traceCursors (none : Option String) [pageOne, pageTwo]).head? = some none :=
  paginate_threads_cursors fetchTwoPages [pageOne, pageTwo]
    fetchTwoPages_serves 2 (by decide)

/-! ## Claim C6 -/

/-- `fetch` serves `pages` (each with `hasNextPage = true` and a truthy
`endCursor`, so the loop keeps going) and then fails with error `e` at the
next threaded cursor. -/
inductive ServesThenFails {T E : Type} (fetch : Option String → Except E (Page T)) :
    Option String → List (Page T) → E → Prop
  | here (c : Option String) (e : E) :
      fetch c = .error e → ServesThenFails fetch c [] e
  | step (c : Option String) (p : Page T) (s : String) (rest : List (Page T)) (e : E) :
      fetch c = .ok p → p.pageInfo.hasNextPage = true →
      p.pageInfo.endCursor = some s → s ≠ "" →
      ServesThenFails fetch (some s) rest e → ServesThenFails fetch c (p :: rest) e

/-- The cursor of the call made after draining `pages`, starting from `c`. -/
def cursorAfter {T : Type} (c : Option String) : List (Page T) → Option String
  | [] => c
  | p :: rest => cursorAfter p.pageInfo.endCursor rest

theorem paginateGo_servesThenFails {T E : Type}
    {fetch : Option String → Except E (Page T)} {c : Option String}
    {pages : List (Page T)} {e : E} (h : ServesThenFails fetch c pages e) :
    ∀ fuel out calls, pages.length + 1 ≤ fuel →
      paginateGo fetch fuel c out calls =
        some ⟨calls ++ traceCursors c pages ++ [cursorAfter c pages], .error e⟩ := by
  induction h with
  | here c e hf =>
    intro fuel out calls hfuel
    match fuel, hfuel with
    | fuel + 1, _ =>
      simp [paginateGo, hf, traceCursors, cursorAfter]
  | step c p s rest e hf hnext hcur hs _ ih =>
    intro fuel out calls hfuel
    match fuel, hfuel with
    | fuel + 1, hfuel =>
      have hrest : rest.length + 1 ≤ fuel := by simpa using hfuel
      have htr : cursorTruthy (some s) = true := by simp [cursorTruthy, hs]
      simp only [paginateGo, hf, hnext, hcur, if_true, htr]
      rw [ih fuel (out ++ p.nodes) (calls ++ [c]) hrest]
      simp [traceCursors, cursorAfter, hcur]

/-- C6: if `fetch` fails on any call — after any number of successfully served
pages — `paginate` settles with exactly that error, performs no retry (one
call per served page plus the single failing call), and returns none of the
items of the earlier pages: the result is the bare error, so the contract is
all-or-nothing. -/
theorem paginate_propagates_error {T E : Type}
    (fetch : Option String → Except E (Page T)) (pages : List (Page T)) (e : E)
    (h : ServesThenFails fetch none pages e) (fuel : Nat)
    (hfuel : pages.length + 1 ≤ fuel) :
    paginate fetch fuel =
      some ⟨traceCursors none pages ++ [cursorAfter none pages], .error e⟩
    ∧ (traceCursors none pages ++ [cursorAfter none pages]).length =
      pages.length + 1 := by
  refine ⟨?_, by simp [traceCursors_length]⟩
  rw [paginate, paginateGo_servesThenFails h fuel [] [] hfuel]
  simp

/-- A fetch function that serves `pageOne` and then rejects with "boom". -/
def fetchThenBoom : Option String → Except String (Page Nat) :=
  fun c => match c with
  | none => .ok pageOne
  | some _ => .error "boom"

/-- C6 witness: after one successful page (items 1, 2), the second call fails
and `paginate` settles with the error "boom" — two calls in total, no items
returned. -/
theorem paginate_propagates_error_witness :
    paginate fetchThenBoom 2 =
      some ⟨traceCursors none [pageOne] ++ [cursorAfter none [pageOne]], .error "boom"⟩
    ∧ (traceCursors (none : Option String) [(pageOne : Page Nat)] ++
        [cursorAfter (none : Option String) [(pageOne : Page Nat)]]).length =
      [(pageOne : Page Nat)].length + 1 :=
  paginate_propagates_error fetchThenBoom [pageOne] "boom"
    (ServesThenFails.step none pageOne "c1" [] "boom" rfl rfl rfl (by decide)
      (ServesThenFails.here (some "c1") "boom" rfl)) 2 (by decide)

/-! ## Claim C5: resolveRelation (src/unnamed/part_005 lines 47-52,
src/unnamed/part_004 lines 602-607)

```
async function resolveRelation<T>(rel: IssueRelation<T>): Promise<T | null> {
  if (!rel) return null;
  if (typeof rel === "function") return await rel();
  if (typeof (rel as Promise<T>)?.then === "function") return await rel;
  return rel;
}
```
with `IssueRelation<T> = T | Promise<T> | (() => Promise<T>) | null | undefined`
(the part_004 copy takes `rel: any`).
-/

/-- The shapes a relation value can arrive in.  `fn k` is a zero-argument
callable returning a promise of `k ()` (`typeof rel === "function"`);
`promiseLike p` is a promise resolving to `p` (it has a callable `.then`);
`concrete v falsy` is a plain, already-resolved value, where `falsy` records
the JS truthiness of `v` (`true` exactly for the falsy values `0`, `""`,
`false`, `NaN`, `0n`; every object, and every other primitive, is truthy).
The claims under verification only concern the success path, so a promise is
embedded as the value it resolves to. -/
inductive RelVal (T : Type) where
  | vnull
  | vundef
  | fn (k : Unit → T)
  | promiseLike (p : T)
  | concrete (v : T) (falsy : Bool)

/-- The source's checks in source order: `if (!rel) return null` (JS
falsiness, so `vnull`, `vundef` and falsy concrete values all return `null`);
then the `typeof rel === "function"` call-and-await; then the promise-like
await; otherwise the value is returned as-is. -/
def resolveRelation {T : Type} : RelVal T → Option T
  | .vnull => none
  | .vundef => none
  | .concrete _ true => none
  | .fn k => some (k ())
  | .promiseLike p => some p
  | .concrete v false => some v

/-- C5 counterexample: the concrete, non-future, non-callable value `0` (a
falsy JS number) is not returned unchanged — `resolveRelation` maps it to
`null`, because the first check tests JS falsiness rather than
null/undefined. -/
theorem resolveRelation_identity_counterexample :
    resolveRelation (RelVal.concrete (0 : Int) true) = none
    ∧ resolveRelation (RelVal.concrete (0 : Int) true) ≠ some 0 :=
  ⟨rfl, by decide⟩

/-- C5 (amended): null/undefined yield null; a zero-argument callable
returning a future of `v` yields `v`; a future resolving to `v` yields `v`;
a *truthy* concrete non-future, non-callable `v` is returned unchanged; but a
*falsy* concrete value (`0`, `""`, `false`, `NaN`) yields null, since the
first of the four checks tests JS falsiness, not just null/undefined. -/
theorem resolveRelation_shapes {T : Type} (k : Unit → T) (p v : T) :
    resolveRelation (RelVal.vnull : RelVal T) = none
    ∧ resolveRelation (RelVal.vundef : RelVal T) = none
    ∧ resolveRelation (RelVal.fn k) = some (k ())
    ∧ resolveRelation (RelVal.promiseLike p) = some p
    ∧ resolveRelation (RelVal.concrete v false) = some v
    ∧ resolveRelation (RelVal.concrete v true) = none :=
  ⟨rfl, rfl, rfl, rfl, rfl, rfl⟩

/-! ## JS `Map` and `Set` models

A JS `Map` is an insertion-ordered association list with unique keys:
`get` returns the value at the key, `set` on an existing key replaces the
value in place (keeping the entry's position), on a new key appends the
entry.  A JS `Set`, iterated with `Array.from`, is the insertion-ordered
first-occurrence deduplication of the values added to it. -/

/-- JS `map.get(k)`. -/
def jsGet {A : Type} : List (String × A) → String → Option A
  | [], _ => none
  | e :: rest, k => if e.1 = k then some e.2 else jsGet rest k

/-- JS `map.set(k, f(map.get(k) ?? dflt))` — the read-modify-write pattern all
the aggregation loops use: update the value at `k` in place, or append a new
entry `(k, f dflt)` when `k` is absent. -/
def jsUpdate {A : Type} : List (String × A) → String → A → (A → A) → List (String × A)
  | [], k, dflt, f => [(k, f dflt)]
  | e :: rest, k, dflt, f =>
    if e.1 = k then (e.1, f e.2) :: rest
    else e :: jsUpdate rest k dflt f

/-- `Array.from(new Set(l))`: first occurrences of `l`, in order. -/
def jsSet (l : List String) : List String :=
  l.foldl (fun acc x => if x ∈ acc then acc else acc ++ [x]) []

theorem jsGet_jsUpdate_self {A : Type} (m : List (String × A)) (k : String)
    (dflt : A) (f : A → A) :
    jsGet (jsUpdate m k dflt f) k = some (f ((jsGet m k).getD dflt)) := by
  induction m with
  | nil => simp [jsGet, jsUpdate]
  | cons e rest ih =>
    by_cases h : e.1 = k
    · simp [jsGet, jsUpdate, h]
    · simp [jsGet, jsUpdate, h, ih]

theorem jsGet_jsUpdate_ne {A : Type} (m : List (String × A)) (k : String)
    (dflt : A) (f : A → A) (k' : String) (h : k' ≠ k) :
    jsGet (jsUpdate m k dflt f) k' = jsGet m k' := by
  have hkk : ¬ k = k' := fun hh => h hh.symm
  induction m with
  | nil => simp [jsGet, jsUpdate, hkk]
  | cons e rest ih =>
    by_cases he : e.1 = k
    · subst he
      simp [jsGet, jsUpdate, hkk]
    · by_cases he' : e.1 = k'
      · simp [jsGet, jsUpdate, he, he', h]
      · simp [jsGet, jsUpdate, he, he', ih]

theorem keys_jsUpdate {A : Type} (m : List (String × A)) (k : String)
    (dflt : A) (f : A → A) :
    (jsUpdate m k dflt f).map Prod.fst =
      if k ∈ m.map Prod.fst then m.map Prod.fst else m.map Prod.fst ++ [k] := by
  induction m with
  | nil => simp [jsUpdate]
  | cons e rest ih =>
    by_cases h : e.1 = k
    · simp [jsUpdate, h]
    · simp only [jsUpdate, if_neg h, List.map_cons, ih]
      have : ¬ k = e.1 := fun hh => h hh.symm
      by_cases hk : k ∈ rest.map Prod.fst <;> simp [hk, this]

theorem mem_jsSet_foldl (l : List String) (x : String) :
    ∀ acc, (x ∈ l.foldl (fun acc y => if y ∈ acc then acc else acc ++ [y]) acc) ↔
      (x ∈ acc ∨ x ∈ l) := by
  induction l with
  | nil => simp
  | cons a rest ih =>
    intro acc
    rw [List.foldl_cons, ih]
    by_cases h : a ∈ acc
    · simp only [if_pos h, List.mem_cons]
      constructor
      · rintro (hx | hx)
        · exact Or.inl hx
        · exact Or.inr (Or.inr hx)
      · rintro (hx | hx | hx)
        · exact Or.inl hx
        · exact Or.inl (hx ▸ h)
        · exact Or.inr hx
    · simp only [if_neg h, List.mem_append, List.mem_singleton, List.mem_cons]
      tauto

theorem mem_jsSet (l : List String) (x : String) : x ∈ jsSet l ↔ x ∈ l := by
  rw [jsSet, mem_jsSet_foldl]
  simp

theorem jsSet_nodup_foldl (l : List String) :
    ∀ acc, acc.Nodup →
      (l.foldl (fun acc y => if y ∈ acc then acc else acc ++ [y]) acc).Nodup := by
  induction l with
  | nil => exact fun acc h => h
  | cons a rest ih =>
    intro acc hacc
    rw [List.foldl_cons]
    by_cases h : a ∈ acc
    · exact ih _ (by simpa [h] using hacc)
    · refine ih _ ?_
      simp only [if_neg h]
      exact List.Nodup.append hacc (List.nodup_singleton a) (by simpa using h)

theorem jsSet_nodup (l : List String) : (jsSet l).Nodup :=
  jsSet_nodup_foldl l [] List.nodup_nil

theorem jsSet_append_singleton (l : List String) (a : String) :
    jsSet (l ++ [a]) = if a ∈ jsSet l then jsSet l else jsSet l ++ [a] := by
  simp [jsSet, List.foldl_append]

theorem jsGet_of_mem_of_nodup {A : Type} {m : List (String × A)}
    (hn : (m.map Prod.fst).Nodup) {k : String} {v : A} (hm : (k, v) ∈ m) :
    jsGet m k = some v := by
  induction m with
  | nil => cases hm
  | cons e rest ih =>
    rcases List.mem_cons.mp hm with he | he
    · simp [jsGet, ← he]
    · have hk : k ∈ rest.map Prod.fst :=
        List.mem_map.mpr ⟨(k, v), he, rfl⟩
      have hne : ¬ e.1 = k := by
        rintro rfl
        exact (List.nodup_cons.mp (by simpa using hn)).1 hk
      simp only [jsGet, if_neg hne]
      exact ih (List.nodup_cons.mp (by simpa using hn)).2 he

/-- Characterization of the read-modify-write aggregation fold shared by the
grouping and counting helpers: the keys are the input's keys in first-seen
order, and the value at key `k` is the chain of updates over the records
with key `k`, in input order, seeded from the first such record's default. -/
theorem jsGet_foldl_jsUpdate {α A : Type} (key : α → String) (v0 : α → A)
    (upd : α → A → A) (xs : List α) (k : String) :
    jsGet (xs.foldl (fun m x => jsUpdate m (key x) (v0 x) (upd x)) []) k =
      match xs.filter (fun x => key x == k) with
      | [] => none
      | x0 :: rest => some (rest.foldl (fun v x => upd x v) (upd x0 (v0 x0))) := by
  induction xs using List.reverseRecOn with
  | nil => simp [jsGet]
  | append_singleton xs a ih =>
    rw [List.foldl_append, List.foldl_cons, List.foldl_nil, List.filter_append]
    by_cases hk : key a = k
    · rw [hk, jsGet_jsUpdate_self, ih]
      cases hf : xs.filter (fun x => key x == k) with
      | nil => simp [hf, hk]
      | cons x0 rest => simp [hf, hk, List.foldl_append]
    · rw [jsGet_jsUpdate_ne _ _ _ _ _ (fun hh => hk hh.symm), ih]
      simp [hk]

theorem keys_foldl_jsUpdate {α A : Type} (key : α → String) (v0 : α → A)
    (upd : α → A → A) (xs : List α) :
    ((xs.foldl (fun m x => jsUpdate m (key x) (v0 x) (upd x)) []).map Prod.fst) =
      jsSet (xs.map key) := by
  induction xs using List.reverseRecOn with
  | nil => simp [jsSet]
  | append_singleton xs a ih =>
    rw [List.foldl_append, List.foldl_cons, List.foldl_nil, keys_jsUpdate, ih,
      List.map_append, List.map_singleton, jsSet_append_singleton]

/-! ## IssueLite and grouping (workspaceSnapshot.ts lines 34-45 and 192-204)

```
function groupIssuesByProjectThenState(issues: IssueLite[]) {
  const grouped = new Map<string, Map<string, IssueLite[]>>();
  for (const iss of issues) {
    const proj = iss.projectName ?? "(No Project)";
    if (!grouped.has(proj)) grouped.set(proj, new Map());
    const byState = grouped.get(proj)!;

    const s = iss.stateName || "(No State)";
    if (!byState.has(s)) byState.set(s, []);
    byState.get(s)!.push(iss);
  }
  return grouped;
}
```
-/

structure IssueLite where
  id : String
  identifier : String
  title : String
  stateName : String
  stateType : Option String
  projectId : Option String
  projectName : Option String
  teamName : Option String
  assigneeId : Option String
  assigneeName : Option String
deriving Repr, DecidableEq

/-- `iss.projectName ?? "(No Project)"`: the nullish-coalescing operator
substitutes the placeholder only for `null`/`undefined` — an empty-string
`projectName` is kept as the key `""`. -/
def projKey (iss : IssueLite) : String :=
  iss.projectName.getD "(No Project)"

/-- `iss.stateName || "(No State)"`: logical-or substitutes the placeholder
for any falsy value, so the empty-string `stateName` becomes "(No State)". -/
def stateKey (iss : IssueLite) : String :=
  if iss.stateName = "" then "(No State)" else iss.stateName

def groupIssuesByProjectThenState (issues : List IssueLite) :
    List (String × List (String × List IssueLite)) :=
  issues.foldl
    (fun grouped iss =>
      jsUpdate grouped (projKey iss) []
        (fun byState => jsUpdate byState (stateKey iss) [] (fun l => l ++ [iss])))
    []

/-- The inner per-state fold that `groupIssuesByProjectThenState` performs on
the records of one project bucket. -/
def stateFold (ys : List IssueLite) : List (String × List IssueLite) :=
  ys.foldl (fun bs iss => jsUpdate bs (stateKey iss) [] (fun l => l ++ [iss])) []

theorem foldl_push (rest : List IssueLite) :
    ∀ init : List IssueLite,
      rest.foldl (fun l i => l ++ [i]) init = init ++ rest := by
  induction rest with
  | nil => simp
  | cons a rest ih => intro init; simp [ih]

theorem jsGet_stateFold (ys : List IssueLite) (S : String) :
    jsGet (stateFold ys) S =
      match ys.filter (fun i => stateKey i == S) with
      | [] => none
      | l => some l := by
  rw [stateFold, jsGet_foldl_jsUpdate stateKey (fun _ => []) (fun i l => l ++ [i]) ys S]
  cases hf : ys.filter (fun i => stateKey i == S) with
  | nil => rfl
  | cons x0 rest => simp [foldl_push rest [x0]]

theorem stateFold_keys (ys : List IssueLite) :
    (stateFold ys).map Prod.fst = jsSet (ys.map stateKey) :=
  keys_foldl_jsUpdate stateKey (fun _ => []) (fun i l => l ++ [i]) ys

theorem jsGet_grouped (issues : List IssueLite) (P : String) :
    jsGet (groupIssuesByProjectThenState issues) P =
      match issues.filter (fun i => projKey i == P) with
      | [] => none
      | l => some (stateFold l) := by
  rw [groupIssuesByProjectThenState,
    jsGet_foldl_jsUpdate projKey (fun _ => [])
      (fun iss byState => jsUpdate byState (stateKey iss) [] (fun l => l ++ [iss])) issues P]
  cases hf : issues.filter (fun i => projKey i == P) with
  | nil => rfl
  | cons x0 rest => simp [stateFold]

theorem grouped_keys (issues : List IssueLite) :
    (groupIssuesByProjectThenState issues).map Prod.fst = jsSet (issues.map projKey) :=
  keys_foldl_jsUpdate projKey (fun _ => [])
    (fun iss byState => jsUpdate byState (stateKey iss) [] (fun l => l ++ [iss])) issues

/-! ## Claim C9 -/

/-- C9: the two grouping keys treat the empty string asymmetrically — a
record with `projectName = ""` is bucketed under the outer key `""` (the
"(No Project)" placeholder only replaces null/undefined), while a record
with `stateName = ""` is bucketed under the inner key "(No State)". -/
theorem grouping_empty_string_asymmetry (iss : IssueLite)
    (hp : iss.projectName = some "") (hs : iss.stateName = "") :
    projKey iss = ""
    ∧ stateKey iss = "(No State)"
    ∧ groupIssuesByProjectThenState [iss] = [("", [("(No State)", [iss])])] := by
  refine ⟨by simp [projKey, hp], by simp [stateKey, hs], ?_⟩
  simp [groupIssuesByProjectThenState, jsUpdate, projKey, stateKey, hp, hs]

/-- A concrete record whose project name is the empty string (not absent) and
whose state name is the empty string. -/
def emptyKeysIssue : IssueLite :=
  ⟨"id1", "ABC-1", "t", "", none, some "p1", some "", none, none, none⟩

/-- C9 witness: the concrete record lands in outer bucket `""` and inner
bucket "(No State)". -/
theorem grouping_empty_string_asymmetry_witness :
    projKey emptyKeysIssue = ""
    ∧ stateKey emptyKeysIssue = "(No State)"
    ∧ groupIssuesByProjectThenState [emptyKeysIssue] =
      [("", [("(No State)", [emptyKeysIssue])])] :=
  grouping_empty_string_asymmetry emptyKeysIssue rfl rfl

/-! ## Claim C10 -/

/-- All records of the grouped structure, outer buckets in order, inner
buckets in order, records in bucket order. -/
def flattenGrouped (g : List (String × List (String × List IssueLite))) :
    List IssueLite :=
  g.flatMap (fun e => e.2.flatMap (fun e2 => e2.2))

theorem flatten_inner_update (bs : List (String × List IssueLite)) (S : String)
    (iss : IssueLite) :
    List.Perm ((jsUpdate bs S [] (fun l => l ++ [iss])).flatMap (fun e2 => e2.2))
      (bs.flatMap (fun e2 => e2.2) ++ [iss]) := by
  induction bs with
  | nil => simp [jsUpdate]
  | cons e rest ih =>
    by_cases he : e.1 = S
    · simp only [jsUpdate, if_pos he, List.flatMap_cons]
      rw [List.append_assoc, List.append_assoc]
      exact List.Perm.append_left e.2 List.perm_append_comm
    · simp only [jsUpdate, if_neg he, List.flatMap_cons]
      rw [List.append_assoc]
      exact List.Perm.append_left e.2 ih

theorem flatten_outer_update (g : List (String × List (String × List IssueLite)))
    (P S : String) (iss : IssueLite) :
    List.Perm
      (flattenGrouped (jsUpdate g P []
        (fun byState => jsUpdate byState S [] (fun l => l ++ [iss]))))
      (flattenGrouped g ++ [iss]) := by
  induction g with
  | nil =>
    simp only [jsUpdate, flattenGrouped, List.flatMap_cons, List.flatMap_nil]
    simp [jsUpdate] 
  | cons e rest ih =>
    by_cases he : e.1 = P
    · simp only [jsUpdate, if_pos he, flattenGrouped, List.flatMap_cons]
      refine ((flatten_inner_update e.2 S iss).append_right _).trans ?_
      rw [List.append_assoc, List.append_assoc]
      exact List.Perm.append_left _ List.perm_append_comm
    · simp only [jsUpdate, if_neg he, flattenGrouped, List.flatMap_cons]
      rw [List.append_assoc]
      exact List.Perm.append_left _ ih

theorem flattenGrouped_perm (issues : List IssueLite) :
    List.Perm (flattenGrouped (groupIssuesByProjectThenState issues)) issues := by
  induction issues using List.reverseRecOn with
  | nil => simp [groupIssuesByProjectThenState, flattenGrouped]
  | append_singleton xs a ih =>
    rw [groupIssuesByProjectThenState, List.foldl_append, List.foldl_cons, List.foldl_nil]
    exact (flatten_outer_update _ (projKey a) (stateKey a) a).trans (ih.append_right [a])

/-- C10: `groupIssuesByProjectThenState` partitions its input — outer buckets
iterate in first-seen project-key order and inner buckets in first-seen
state-key order; the bucket at keys `(P, S)` is exactly the in-order
sublist of input records whose keys are `(P, S)` (so every record is in
exactly one bucket, none duplicated or dropped, relative order kept); and
all buckets together are a permutation of the input.  (The embedding is a
pure function, so the input list itself is untouched.) -/
theorem grouping_partitions (issues : List IssueLite) :
    ((groupIssuesByProjectThenState issues).map Prod.fst = jsSet (issues.map projKey))
    ∧ (∀ P byState, (P, byState) ∈ groupIssuesByProjectThenState issues →
        byState.map Prod.fst =
          jsSet ((issues.filter (fun i => projKey i == P)).map stateKey))
    ∧ (∀ P byState S l, (P, byState) ∈ groupIssuesByProjectThenState issues →
        (S, l) ∈ byState →
        l = issues.filter (fun i => projKey i == P && stateKey i == S))
    ∧ List.Perm (flattenGrouped (groupIssuesByProjectThenState issues)) issues := by
  have houter : ∀ P byState, (P, byState) ∈ groupIssuesByProjectThenState issues →
      byState = stateFold (issues.filter (fun i => projKey i == P)) := by
    intro P byState hm
    have hnod : ((groupIssuesByProjectThenState issues).map Prod.fst).Nodup := by
      rw [grouped_keys]; exact jsSet_nodup _
    have := jsGet_of_mem_of_nodup hnod hm
    rw [jsGet_grouped] at this
    cases hf : issues.filter (fun i => projKey i == P) with
    | nil => rw [hf] at this; cases this
    | cons x0 rest =>
      rw [hf] at this
      simpa [hf] using this.symm
  refine ⟨grouped_keys issues, ?_, ?_, flattenGrouped_perm issues⟩
  · intro P byState hm
    rw [houter P byState hm, stateFold_keys]
  · intro P byState S l hm hl
    rw [houter P byState hm] at hl
    have hnod : ((stateFold (issues.filter (fun i => projKey i == P))).map Prod.fst).Nodup := by
      rw [stateFold_keys]; exact jsSet_nodup _
    have := jsGet_of_mem_of_nodup hnod hl
    rw [jsGet_stateFold] at this
    cases hf : (issues.filter (fun i => projKey i == P)).filter (fun i => stateKey i == S) with
    | nil => rw [hf] at this; cases this
    | cons y0 rest =>
      rw [hf] at this
      have hl2 : l = (issues.filter (fun i => projKey i == P)).filter (fun i => stateKey i == S) := by
        rw [hf]
        exact (Option.some_injective _ this).symm
      rw [hl2, List.filter_filter]
      exact List.filter_congr (fun a _ => by rw [Bool.and_comm])

/-! ## Projects, active-project rows and assignee load
(workspaceSnapshot.ts lines 183-188 and 206-234)

```
function isActiveProject(p?: Project | null): boolean {
  if (!p) return false;
  const state = String(p.state ?? "").toLowerCase();
  const active = state === "planned" || state === "started";
  return active && !p.archivedAt;
}
```
-/

structure Project where
  name : Option String
  state : Option String
  archivedAt : Option String
deriving Repr, DecidableEq

/-- JS `String.prototype.toLowerCase()`, embedded character-wise (the status
strings involved are ASCII). -/
def jsToLower (s : String) : String := String.mk (s.data.map Char.toLower)

/-- `isActiveProject`: absent project is inactive; otherwise the lowercased
state must be exactly "planned" or "started" and `archivedAt` must be unset
(a present `Date` is always truthy, so `!p.archivedAt` is `isNone`). -/
def isActiveProject : Option Project → Bool
  | none => false
  | some p =>
    let state := jsToLower (p.state.getD "")
    let active := state == "planned" || state == "started"
    active && p.archivedAt.isNone

/-- The shared sort comparator `(a, b) => b.count - a.count ||
a.name.localeCompare(b.name)`, read as a may-precede relation: count
descending, ties by name ascending (`localeCompare` embedded as the string
order). -/
def countNameLE (ca : Nat) (na : String) (cb : Nat) (nb : String) : Bool :=
  if ca = cb then decide (na ≤ nb) else decide (cb < ca)

theorem countNameLE_trans {ca cb cc : Nat} {na nb nc : String}
    (h1 : countNameLE ca na cb nb = true) (h2 : countNameLE cb nb cc nc = true) :
    countNameLE ca na cc nc = true := by
  unfold countNameLE at h1 h2 ⊢
  by_cases e1 : ca = cb
  · by_cases e2 : cb = cc
    · rw [if_pos e1, decide_eq_true_eq] at h1
      rw [if_pos e2, decide_eq_true_eq] at h2
      rw [if_pos (e1.trans e2), decide_eq_true_eq]
      exact le_trans h1 h2
    · rw [if_neg e2, decide_eq_true_eq] at h2
      have hne : ¬ ca = cc := by omega
      rw [if_neg hne, decide_eq_true_eq]
      omega
  · rw [if_neg e1, decide_eq_true_eq] at h1
    by_cases e2 : cb = cc
    · have hne : ¬ ca = cc := by omega
      rw [if_neg hne, decide_eq_true_eq]
      omega
    · rw [if_neg e2, decide_eq_true_eq] at h2
      have hne : ¬ ca = cc := by omega
      rw [if_neg hne, decide_eq_true_eq]
      omega

theorem countNameLE_total (ca cb : Nat) (na nb : String) :
    (countNameLE ca na cb nb || countNameLE cb nb ca na) = true := by
  unfold countNameLE
  by_cases e : ca = cb
  · rw [if_pos e, if_pos e.symm]
    rcases le_total na nb with h | h
    · simp [h]
    · simp [h]
  · rw [if_neg e, if_neg (fun hh => e hh.symm)]
    rcases Nat.lt_or_ge ca cb with h | h
    · simp [h]
    · have hlt : cb < ca := by omega
      simp [hlt]

structure ProjectRow where
  projectName : String
  projectId : String
  state : String
  openCount : Nat
deriving Repr, DecidableEq

def projRowLE (a b : ProjectRow) : Bool :=
  countNameLE a.openCount a.projectName b.openCount b.projectName

theorem projRowLE_trans (a b c : ProjectRow) (h1 : projRowLE a b = true)
    (h2 : projRowLE b c = true) : projRowLE a c = true :=
  countNameLE_trans h1 h2

theorem projRowLE_total (a b : ProjectRow) :
    (projRowLE a b || projRowLE b a) = true :=
  countNameLE_total a.openCount b.openCount a.projectName b.projectName

/-- The `filter(Boolean)` step on `issues.map((i) => i.projectId)`: drops
null/undefined and the (falsy) empty string. -/
def truthyId : Option String → Option String
  | none => none
  | some s => if s = "" then none else some s

/-- The loop body of `computeActiveProjects` for one referenced project id:
skip ids missing from the lookup (`if (!p) continue`), skip inactive
projects, and otherwise build the row with the open-issue count
`issues.filter((i) => i.projectId === pid).length`. -/
def mkProjectRow (issues : List IssueLite) (projects : String → Option Project)
    (pid : String) : Option ProjectRow :=
  match projects pid with
  | none => none
  | some p =>
    if isActiveProject (some p) then
      some ⟨p.name.getD "(Unnamed Project)", pid, p.state.getD "",
        (issues.filter (fun i => i.projectId == some pid)).length⟩
    else none

def computeActiveProjects (issues : List IssueLite)
    (projects : String → Option Project) : List ProjectRow :=
  let referenced := jsSet ((issues.map (fun i => i.projectId)).filterMap truthyId)
  (referenced.filterMap (mkProjectRow issues projects)).mergeSort projRowLE

structure AssigneeRow where
  name : String
  count : Nat
deriving Repr, DecidableEq

def assigneeRowLE (a b : AssigneeRow) : Bool :=
  countNameLE a.count a.name b.count b.name

theorem assigneeRowLE_trans (a b c : AssigneeRow) (h1 : assigneeRowLE a b = true)
    (h2 : assigneeRowLE b c = true) : assigneeRowLE a c = true :=
  countNameLE_trans h1 h2

theorem assigneeRowLE_total (a b : AssigneeRow) :
    (assigneeRowLE a b || assigneeRowLE b a) = true :=
  countNameLE_total a.count b.count a.name b.name

/-- `iss.assigneeId ?? "(unassigned)"`. -/
def assigneeKey (iss : IssueLite) : String := iss.assigneeId.getD "(unassigned)"

/-- `iss.assigneeName ?? "(unassigned)"`. -/
def assigneeNm (iss : IssueLite) : String := iss.assigneeName.getD "(unassigned)"

/-- `computeAssigneeLoad`: the Map-building loop reads the current row for
the owner key (`by.get(key) ?? { name: nm, count: 0 }`), increments its
count, and writes it back; the first record with a key fixes the row's name;
then `Array.from(by.values())` (insertion order) is sorted by count
descending, name ascending. -/
def loadStep (m : List (String × AssigneeRow)) (iss : IssueLite) :
    List (String × AssigneeRow) :=
  jsUpdate m (assigneeKey iss) ⟨assigneeNm iss, 0⟩
    (fun cur => ⟨cur.name, cur.count + 1⟩)

def computeAssigneeLoad (issues : List IssueLite) : List AssigneeRow :=
  ((issues.foldl loadStep []).map Prod.snd).mergeSort assigneeRowLE

/-! ## Claim C7 -/

/-- The claim's qualification predicate, written from the claim's words: the
referenced parent project is present in the side-loaded lookup, its status is
case-insensitively exactly "planned" or "started", and it is not archived. -/
def claimActive : Option Project → Bool
  | none => false
  | some p =>
    ((jsToLower (p.state.getD "") == "planned") || (jsToLower (p.state.getD "") == "started"))
      && (p.archivedAt == none)

theorem claimActive_eq_isActiveProject (op : Option Project) :
    claimActive op = isActiveProject op := by
  cases op with
  | none => rfl
  | some p =>
    simp only [claimActive, isActiveProject]
    cases p.archivedAt <;> simp

theorem countP_filterMap_nodup {A : Type} (mk : String → Option A)
    (pidOf : A → String) (hmk : ∀ k r, mk k = some r → pidOf r = k) :
    ∀ (l : List String), l.Nodup → ∀ pid : String,
      ((l.filterMap mk).countP (fun r => pidOf r == pid)) =
        if pid ∈ l ∧ (mk pid).isSome then 1 else 0 := by
  intro l
  induction l with
  | nil => intro _ pid; simp
  | cons a rest ih =>
    intro hn pid
    rw [List.filterMap_cons]
    cases hma : mk a with
    | none =>
      rw [ih hn.of_cons pid]
      by_cases hpa : pid = a
      · subst hpa
        have hnr : pid ∉ rest := (List.nodup_cons.mp hn).1
        simp [hnr, hma]
      · simp [hpa]
    | some r =>
      rw [List.countP_cons, ih hn.of_cons pid]
      have hr : pidOf r = a := hmk a r hma
      by_cases hpa : pid = a
      · subst hpa
        have hnr : pid ∉ rest := (List.nodup_cons.mp hn).1
        simp [hnr, hr, hma]
      · have hb : (pidOf r == pid) = false := by
          rw [hr]
          exact beq_eq_false_iff_ne.mpr (fun hh => hpa hh.symm)
        simp [hpa, hb]

theorem mkProjectRow_projectId (issues : List IssueLite)
    (projects : String → Option Project) (k : String) (r : ProjectRow)
    (h : mkProjectRow issues projects k = some r) : r.projectId = k := by
  unfold mkProjectRow at h
  split at h
  · cases h
  · split at h
    · cases h
      rfl
    · cases h

theorem mkProjectRow_isSome (issues : List IssueLite)
    (projects : String → Option Project) (pid : String) :
    (mkProjectRow issues projects pid).isSome = claimActive (projects pid) := by
  rw [claimActive_eq_isActiveProject]
  unfold mkProjectRow
  cases hp : projects pid with
  | none => rfl
  | some p =>
    by_cases ha : isActiveProject (some p) = true
    · simp [ha]
    · simp [ha, Bool.eq_false_iff.mpr ha]

theorem mkProjectRow_openCount (issues : List IssueLite)
    (projects : String → Option Project) (k : String) (r : ProjectRow)
    (h : mkProjectRow issues projects k = some r) :
    r.openCount = (issues.filter (fun i => i.projectId == some k)).length := by
  unfold mkProjectRow at h
  split at h
  · cases h
  · split at h
    · cases h
      rfl
    · cases h

/-- C7: `computeActiveProjects` emits exactly one row for every project id
that is referenced by some record (truthy `projectId`) and whose project is
present in the lookup, has status (case-insensitively) exactly "planned" or
"started" and is not archived — and no row for any other id (in particular a
"completed" or an archived "planned" project gets no row); each row's
`openCount` is the number of records referencing that project; the rows are
sorted by count descending with ties by ascending project name; and the
claim's qualification predicate agrees with the source's `isActiveProject`
everywhere. -/
theorem computeActiveProjects_spec (issues : List IssueLite)
    (projects : String → Option Project) :
    (∀ pid : String,
      (computeActiveProjects issues projects).countP (fun r => r.projectId == pid) =
        if pid ∈ (issues.map (fun i => i.projectId)).filterMap truthyId ∧
            claimActive (projects pid) = true then 1 else 0)
    ∧ (∀ r ∈ computeActiveProjects issues projects,
        r.openCount = (issues.filter (fun i => i.projectId == some r.projectId)).length)
    ∧ List.Pairwise (fun a b => projRowLE a b = true)
        (computeActiveProjects issues projects)
    ∧ (∀ op : Option Project, claimActive op = isActiveProject op) := by
  refine ⟨?_, ?_, ?_, claimActive_eq_isActiveProject⟩
  · intro pid
    rw [computeActiveProjects,
      List.Perm.countP_eq _ (List.mergeSort_perm _ projRowLE),
      countP_filterMap_nodup (mkProjectRow issues projects) ProjectRow.projectId
        (mkProjectRow_projectId issues projects) _ (jsSet_nodup _) pid,
      mkProjectRow_isSome]
    by_cases hm : pid ∈ (issues.map (fun i => i.projectId)).filterMap truthyId
    · simp [mem_jsSet, hm]
    · simp [mem_jsSet, hm]
  · intro r hr
    rw [computeActiveProjects] at hr
    have hr2 := (List.mergeSort_perm _ projRowLE).mem_iff.mp hr
    rcases List.mem_filterMap.mp hr2 with ⟨k, _, hk⟩
    rw [mkProjectRow_openCount issues projects k r hk,
      mkProjectRow_projectId issues projects k r hk]
  · rw [computeActiveProjects]
    exact List.sorted_mergeSort
      (fun a b c => projRowLE_trans a b c) (fun a b => projRowLE_total a b) _

/-- The three projects of the claim's worked example. -/
def projPlanned : Project := ⟨some "Alpha", some "planned", none⟩

def projCompleted : Project := ⟨some "Beta", some "completed", none⟩

def projArchived : Project := ⟨some "Gamma", some "planned", some "2024-01-01"⟩

def demoLookup : String → Option Project :=
  fun pid =>
    if pid = "p1" then some projPlanned
    else if pid = "p2" then some projCompleted
    else if pid = "p3" then some projArchived
    else none

def demoIssue (n : Nat) (pid : String) (aid nm : Option String) : IssueLite :=
  ⟨"id" ++ toString n, "ABC-" ++ toString n, "t", "Todo", none, some pid, some "P",
    none, aid, nm⟩

/-- Records referencing the planned project twice and the completed and
archived projects once each. -/
def demoIssues : List IssueLite :=
  [demoIssue 1 "p1" (some "a") (some "A"),
   demoIssue 2 "p1" (some "b") (some "B"),
   demoIssue 3 "p2" (some "b") (some "B"),
   demoIssue 4 "p3" (some "c") (some "C")]

/-- C7 witness: the claim instantiated at the worked example — the planned
project gets exactly one row, the completed and the archived planned project
get none, and every row's count is the number of records referencing it. -/
theorem computeActiveProjects_spec_witness :
    ((computeActiveProjects demoIssues demoLookup).countP
        (fun r => r.projectId == "p1") = 1)
    ∧ ((computeActiveProjects demoIssues demoLookup).countP
        (fun r => r.projectId == "p2") = 0)
    ∧ ((computeActiveProjects demoIssues demoLookup).countP
        (fun r => r.projectId == "p3") = 0)
    ∧ (∀ r ∈ computeActiveProjects demoIssues demoLookup,
        r.openCount =
          (demoIssues.filter (fun i => i.projectId == some r.projectId)).length) := by
  have h := computeActiveProjects_spec demoIssues demoLookup
  refine ⟨?_, ?_, ?_, h.2.1⟩
  · rw [h.1 "p1"]
    decide
  · rw [h.1 "p2"]
    decide
  · rw [h.1 "p3"]
    decide

/-! ## Claim C8 -/

/-- One output row for the owner key `k`, as the claim describes it: the
display name of the first record with that owner (with the "(unassigned)"
placeholder for an absent name), and the number of records with that owner. -/
def loadVal (issues : List IssueLite) (k : String) : AssigneeRow :=
  ⟨((issues.find? (fun i => assigneeKey i == k)).map assigneeNm).getD "(unassigned)",
    issues.countP (fun i => assigneeKey i == k)⟩

/-- The claim's description of the unsorted assignee load: one row per
distinct owner key, keys in first-seen order. -/
def loadRows (issues : List IssueLite) : List AssigneeRow :=
  (jsSet (issues.map assigneeKey)).map (loadVal issues)

theorem eq_map_of_jsGet {A : Type} :
    ∀ (m : List (String × A)) (v : String → A),
      (m.map Prod.fst).Nodup →
      (∀ k, k ∈ m.map Prod.fst → jsGet m k = some (v k)) →
      m = (m.map Prod.fst).map (fun k => (k, v k)) := by
  intro m
  induction m with
  | nil => intro v _ _; rfl
  | cons e rest ih =>
    intro v hn hv
    have he : jsGet (e :: rest) e.1 = some (v e.1) := hv e.1 (by simp)
    have he2 : e.2 = v e.1 := by
      simpa [jsGet] using he
    have hrest : rest = (rest.map Prod.fst).map (fun k => (k, v k)) := by
      refine ih v (List.nodup_cons.mp (by simpa using hn)).2 ?_
      intro k hk
      have hne : ¬ e.1 = k := by
        rintro rfl
        exact (List.nodup_cons.mp (by simpa using hn)).1 hk
      have := hv k (by simp [hk])
      simpa [jsGet, hne] using this
    cases e with
    | mk k0 v0 =>
      simp only [List.map_cons]
      rw [← hrest]
      simp only at he2
      rw [he2]

theorem foldl_inc (rest : List IssueLite) :
    ∀ (nm : String) (c : Nat),
      rest.foldl (fun (v : AssigneeRow) _ => ⟨v.name, v.count + 1⟩) ⟨nm, c⟩ =
        ⟨nm, c + rest.length⟩ := by
  induction rest with
  | nil => intro nm c; simp
  | cons a rest ih =>
    intro nm c
    rw [List.foldl_cons, ih]
    simp only [List.length_cons]
    congr 1
    omega

theorem find?_eq_head?_filter {α : Type} (p : α → Bool) (l : List α) :
    l.find? p = (l.filter p).head? := by
  induction l with
  | nil => rfl
  | cons a rest ih =>
    by_cases hp : p a
    · simp [List.find?_cons, List.filter_cons, hp]
    · simp only [List.find?_cons, List.filter_cons, Bool.eq_false_iff.mpr hp]
      simp only [Bool.false_eq_true, if_false, cond_false]
      exact ih

/-- The Map-building loop of `computeAssigneeLoad`, characterized: its values
in insertion order are exactly the claim's rows. -/
theorem computeAssigneeLoad_unsorted (issues : List IssueLite) :
    (issues.foldl loadStep []).map Prod.snd = loadRows issues := by
  have hkeys : ((issues.foldl loadStep []).map Prod.fst) =
      jsSet (issues.map assigneeKey) :=
    keys_foldl_jsUpdate assigneeKey
      (fun iss => (⟨assigneeNm iss, 0⟩ : AssigneeRow))
      (fun _ cur => (⟨cur.name, cur.count + 1⟩ : AssigneeRow)) issues
  have hnod : ((issues.foldl loadStep []).map Prod.fst).Nodup := by
    rw [hkeys]
    exact jsSet_nodup _
  have hget : ∀ k, k ∈ (issues.foldl loadStep []).map Prod.fst →
      jsGet (issues.foldl loadStep []) k = some (loadVal issues k) := by
    intro k hk
    rw [hkeys, mem_jsSet] at hk
    rw [show (issues.foldl loadStep []) =
      issues.foldl (fun m iss => jsUpdate m (assigneeKey iss)
        (⟨assigneeNm iss, 0⟩ : AssigneeRow)
        (fun cur => (⟨cur.name, cur.count + 1⟩ : AssigneeRow))) [] from rfl,
      jsGet_foldl_jsUpdate assigneeKey
        (fun iss => (⟨assigneeNm iss, 0⟩ : AssigneeRow))
        (fun _ cur => (⟨cur.name, cur.count + 1⟩ : AssigneeRow)) issues k]
    cases hf : issues.filter (fun i => assigneeKey i == k) with
    | nil =>
      exfalso
      rcases List.mem_map.mp hk with ⟨i, hi, hik⟩
      have : i ∈ issues.filter (fun i => assigneeKey i == k) :=
        List.mem_filter.mpr ⟨hi, by simp [hik]⟩
      rw [hf] at this
      cases this
    | cons x0 rest =>
      simp only
      rw [foldl_inc rest (assigneeNm x0) 1]
      unfold loadVal
      rw [find?_eq_head?_filter, hf, List.countP_eq_length_filter, hf]
      simp [Nat.add_comm]
  have hm := eq_map_of_jsGet _ (loadVal issues) hnod hget
  rw [loadRows, ← hkeys]
  conv_lhs => rw [hm]
  rw [List.map_map]
  rfl

/-- C8: `computeAssigneeLoad` returns, up to the sort, exactly one row per
distinct owner key ("(unassigned)" substituted for an absent owner id), each
row counting the records with that owner and named after the first such
record; and the returned list is sorted by count descending with ties by
ascending display name. -/
theorem computeAssigneeLoad_spec (issues : List IssueLite) :
    List.Perm (computeAssigneeLoad issues) (loadRows issues)
    ∧ List.Pairwise (fun a b => assigneeRowLE a b = true)
        (computeAssigneeLoad issues) := by
  constructor
  · rw [computeAssigneeLoad, computeAssigneeLoad_unsorted]
    exact List.mergeSort_perm _ _
  · rw [computeAssigneeLoad]
    exact List.sorted_mergeSort
      (fun a b c => assigneeRowLE_trans a b c) (fun a b => assigneeRowLE_total a b) _

/-- Records giving owner counts A: 2, B: 2, C: 1 with A < B lexicographically
— the claim's worked example. -/
def loadDemo : List IssueLite :=
  [demoIssue 1 "p1" (some "idC") (some "C"),
   demoIssue 2 "p1" (some "idB") (some "B"),
   demoIssue 3 "p1" (some "idA") (some "A"),
   demoIssue 4 "p1" (some "idB") (some "B"),
   demoIssue 5 "p1" (some "idA") (some "A")]

/-- C8 witness: the claim instantiated at the worked example. -/
theorem computeAssigneeLoad_spec_witness :
    List.Perm (computeAssigneeLoad loadDemo) (loadRows loadDemo)
    ∧ List.Pairwise (fun a b => assigneeRowLE a b = true)
        (computeAssigneeLoad loadDemo) :=
  computeAssigneeLoad_spec loadDemo

/-! ## mapLimit (workspaceSnapshot.ts lines 88-113)

```
async function mapLimit<T, R>(
  items: T[],
  limit: number,
  worker: (item: T, idx: number) => Promise<R>
): Promise<R[]> {
  const result: R[] = new Array(items.length);
  let i = 0;
  let active = 0;
  return await new Promise<R[]>((resolve, reject) => {
    const pump = () => {
      if (i >= items.length && active === 0) return resolve(result);
      while (active < limit && i < items.length) {
        const idx = i++;
        active++;
        worker(items[idx], idx)
          .then((val) => {
            result[idx] = val;
            active--;
            pump();
          })
          .catch(reject);
      }
    };
    pump();
  });
}
```

The single-threaded event loop is embedded as a state machine: the state
holds `i` (`nextIdx`), the set of started-but-unfinished worker indices
(`inFlight`, whose length is `active`), the result array (`none` = cell not
yet written) and whether `resolve` ran (`done`).  `pump` is the synchronous
pump function; a scheduler list of indices picks which in-flight worker's
`.then` continuation runs next (indices not in flight are ignored — they
cannot fire).  The worker is embedded by its settled value
`worker items[idx] idx`; the claims C3/C4 concern the success path. -/

structure MLState (R : Type) where
  nextIdx : Nat
  inFlight : List Nat
  result : List (Option R)
  done : Bool
deriving Repr, DecidableEq

/-- The `while (active < limit && i < items.length)` loop of `pump`: start
workers (in index order: each takes `idx = i++` and raises `active`) until
the limit is reached or no items remain.  The loop runs at most
`n - nextIdx` times, which the fuel makes explicit. -/
def startWorkers {R : Type} (limit n : Nat) : Nat → MLState R → MLState R
  | 0, s => s
  | fuel + 1, s =>
    if s.inFlight.length < limit ∧ s.nextIdx < n then
      startWorkers limit n fuel
        { s with nextIdx := s.nextIdx + 1, inFlight := s.inFlight ++ [s.nextIdx] }
    else s

/-- `pump`: resolve when everything is dispatched and nothing is in flight,
else top up the worker pool. -/
def pump {R : Type} (limit n : Nat) (s : MLState R) : MLState R :=
  if n ≤ s.nextIdx ∧ s.inFlight = [] then { s with done := true }
  else startWorkers limit n (n - s.nextIdx) s

/-- The value worker `j` settles with: `worker(items[j], j)`. -/
def wval {T R : Type} (items : List T) (worker : T → Nat → R) (j : Nat) : Option R :=
  items[j]?.map (fun a => worker a j)

/-- The `.then` continuation of worker `j`: write `result[idx] = val`, lower
`active` (worker `j` leaves the in-flight set), and run `pump` again. -/
def finishWorker {T R : Type} (items : List T) (limit : Nat) (worker : T → Nat → R)
    (j : Nat) (s : MLState R) : MLState R :=
  pump limit items.length
    { s with inFlight := s.inFlight.erase j,
             result := s.result.set j (wval items worker j) }

/-- `new Array(items.length)` with `i = 0`, `active = 0`, promise pending. -/
def initState (R : Type) (n : Nat) : MLState R :=
  ⟨0, [], List.replicate n none, false⟩

/-- One run of `mapLimit`: the initial `pump()` call, then the scheduler
fires the in-flight workers' continuations in the order given by `sched`
(an index not in flight cannot fire and is skipped). -/
def mapLimitRun {T R : Type} (items : List T) (limit : Nat) (worker : T → Nat → R)
    (sched : List Nat) : MLState R :=
  sched.foldl
    (fun s j => if j ∈ s.inFlight then finishWorker items limit worker j s else s)
    (pump limit items.length (initState R items.length))

/-- The machine invariant outside `pump`: the result array keeps its length;
`i` never passes the item count; at most `limit` workers are in flight;
in-flight indices are strictly increasing (workers start in input-index
order) and all below `i`; a cell is written iff its worker was started and
finished, and then it holds `worker items[j] j`. -/
def CoreInv {T R : Type} (items : List T) (limit : Nat) (worker : T → Nat → R)
    (s : MLState R) : Prop :=
  s.result.length = items.length
  ∧ s.nextIdx ≤ items.length
  ∧ s.inFlight.length ≤ limit
  ∧ List.Pairwise (· < ·) s.inFlight
  ∧ (∀ j ∈ s.inFlight, j < s.nextIdx)
  ∧ (∀ j, j < items.length →
      s.result[j]? =
        some (if j < s.nextIdx ∧ j ∉ s.inFlight then wval items worker j else none))

/-- The full invariant between scheduler steps: additionally, while items
remain undispatched the pool is full (`active = limit` — a completed worker
is replaced at once), and once resolved everything was dispatched and
nothing is in flight. -/
def MLInv {T R : Type} (items : List T) (limit : Nat) (worker : T → Nat → R)
    (s : MLState R) : Prop :=
  CoreInv items limit worker s
  ∧ (s.nextIdx < items.length → s.inFlight.length = limit)
  ∧ (s.done = true → items.length ≤ s.nextIdx ∧ s.inFlight = [])

theorem startWorkers_exit {R : Type} (limit n : Nat) :
    ∀ (fuel : Nat) (s : MLState R), n ≤ s.nextIdx + fuel →
      ¬((startWorkers limit n fuel s).inFlight.length < limit ∧
        (startWorkers limit n fuel s).nextIdx < n) := by
  intro fuel
  induction fuel with
  | zero =>
    intro s hf
    simp only [startWorkers]
    rintro ⟨_, h2⟩
    omega
  | succ fuel ih =>
    intro s hf
    simp only [startWorkers]
    by_cases hc : s.inFlight.length < limit ∧ s.nextIdx < n
    · rw [if_pos hc]
      exact ih _ (show n ≤ s.nextIdx + 1 + fuel by omega)
    · rw [if_neg hc]
      exact hc

theorem coreInv_start {T R : Type} {items : List T} {limit : Nat}
    {worker : T → Nat → R} {s : MLState R}
    (hs : CoreInv items limit worker s)
    (hlen : s.inFlight.length < limit) (hidx : s.nextIdx < items.length) :
    CoreInv items limit worker
      { s with nextIdx := s.nextIdx + 1, inFlight := s.inFlight ++ [s.nextIdx] } := by
  obtain ⟨h1, h2, h3, h4, h5, h6⟩ := hs
  refine ⟨h1, show s.nextIdx + 1 ≤ items.length by omega, ?_, ?_, ?_, ?_⟩
  · show (s.inFlight ++ [s.nextIdx]).length ≤ limit
    rw [List.length_append, List.length_singleton]
    omega
  · show List.Pairwise (· < ·) (s.inFlight ++ [s.nextIdx])
    rw [List.pairwise_append]
    refine ⟨h4, List.pairwise_singleton _ _, ?_⟩
    intro a ha b hb
    rw [List.mem_singleton] at hb
    subst hb
    exact h5 a ha
  · show ∀ j ∈ s.inFlight ++ [s.nextIdx], j < s.nextIdx + 1
    intro j hj
    rcases List.mem_append.mp hj with hj | hj
    · exact Nat.lt_succ_of_lt (h5 j hj)
    · rw [List.mem_singleton] at hj
      omega
  · intro j hjn
    show s.result[j]? = some (if j < s.nextIdx + 1 ∧ j ∉ s.inFlight ++ [s.nextIdx]
      then wval items worker j else none)
    have hcond : (j < s.nextIdx + 1 ∧ j ∉ s.inFlight ++ [s.nextIdx]) ↔
        (j < s.nextIdx ∧ j ∉ s.inFlight) := by
      simp only [List.mem_append, List.mem_singleton]
      constructor
      · rintro ⟨hlt, hni⟩
        have hne : j ≠ s.nextIdx := fun hh => hni (Or.inr hh)
        exact ⟨by omega, fun hh => hni (Or.inl hh)⟩
      · rintro ⟨hlt, hni⟩
        refine ⟨by omega, ?_⟩
        rintro (hh | hh)
        · exact hni hh
        · omega
    rw [h6 j hjn, if_congr hcond rfl rfl]

theorem startWorkers_coreInv {T R : Type} (items : List T) (limit : Nat)
    (worker : T → Nat → R) :
    ∀ (fuel : Nat) (s : MLState R), CoreInv items limit worker s →
      CoreInv items limit worker (startWorkers limit items.length fuel s)
      ∧ (startWorkers limit items.length fuel s).done = s.done := by
  intro fuel
  induction fuel with
  | zero => intro s hs; exact ⟨hs, rfl⟩
  | succ fuel ih =>
    intro s hs
    simp only [startWorkers]
    by_cases hc : s.inFlight.length < limit ∧ s.nextIdx < items.length
    · rw [if_pos hc]
      exact ih _ (coreInv_start hs hc.1 hc.2)
    · rw [if_neg hc]
      exact ⟨hs, rfl⟩

theorem pump_inv {T R : Type} (items : List T) (limit : Nat)
    (worker : T → Nat → R) (s : MLState R)
    (hs : CoreInv items limit worker s) (hdone : s.done = false) :
    MLInv items limit worker (pump limit items.length s) := by
  unfold pump
  by_cases hc : items.length ≤ s.nextIdx ∧ s.inFlight = []
  · rw [if_pos hc]
    obtain ⟨h1, h2, h3, h4, h5, h6⟩ := hs
    refine ⟨⟨h1, h2, h3, h4, h5, h6⟩, ?_, fun _ => hc⟩
    intro hlt
    have hlt2 : s.nextIdx < items.length := hlt
    have hn := hc.1
    omega
  · rw [if_neg hc]
    obtain ⟨hcore, hd⟩ :=
      startWorkers_coreInv items limit worker (items.length - s.nextIdx) s hs
    refine ⟨hcore, ?_, ?_⟩
    · intro hlt
      have hexit := startWorkers_exit limit items.length
        (items.length - s.nextIdx) s (by omega)
      have hle := hcore.2.2.1
      omega
    · intro hdt
      rw [hd, hdone] at hdt
      cases hdt

theorem coreInv_init {T R : Type} (items : List T) (limit : Nat)
    (worker : T → Nat → R) :
    CoreInv items limit worker (initState R items.length) := by
  refine ⟨List.length_replicate _ _, Nat.zero_le _, by simp [initState],
    List.Pairwise.nil, by simp [initState], ?_⟩
  intro j hjn
  simp only [initState]
  rw [List.getElem?_replicate, if_pos hjn]
  simp

theorem finishWorker_inv {T R : Type} (items : List T) (limit : Nat)
    (worker : T → Nat → R) (j : Nat) (s : MLState R)
    (hs : MLInv items limit worker s) (hj : j ∈ s.inFlight) :
    MLInv items limit worker (finishWorker items limit worker j s) := by
  obtain ⟨⟨h1, h2, h3, h4, h5, h6⟩, _, hdone⟩ := hs
  have hnodup : s.inFlight.Nodup := h4.nodup
  have hdf : s.done = false := by
    cases hdb : s.done
    · rfl
    · rw [(hdone hdb).2] at hj
      cases hj
  apply pump_inv
  · refine ⟨by rw [List.length_set]; exact h1, h2,
      le_trans ((List.erase_sublist j s.inFlight).length_le) h3,
      h4.sublist (List.erase_sublist j s.inFlight),
      fun j' hj' => h5 j' (List.mem_of_mem_erase hj'), ?_⟩
    intro j' hj'n
    simp only
    by_cases hjj : j' = j
    · rw [hjj]
      have hcond : j < s.nextIdx ∧ j ∉ s.inFlight.erase j :=
        ⟨h5 j hj, hnodup.not_mem_erase⟩
      rw [List.getElem?_set_self', h6 j (hjj ▸ hj'n), if_pos hcond]
      rfl
    · rw [List.getElem?_set_ne (fun hh => hjj hh.symm), h6 j' hj'n]
      have hcond : (j' < s.nextIdx ∧ j' ∉ s.inFlight.erase j) ↔
          (j' < s.nextIdx ∧ j' ∉ s.inFlight) := by
        rw [List.mem_erase_of_ne hjj]
      rw [if_congr hcond rfl rfl]
  · exact hdf

theorem mapLimitRun_inv {T R : Type} (items : List T) (limit : Nat)
    (worker : T → Nat → R) (sched : List Nat) :
    MLInv items limit worker (mapLimitRun items limit worker sched) := by
  have hstep : ∀ (sch : List Nat) (s : MLState R), MLInv items limit worker s →
      MLInv items limit worker
        (sch.foldl (fun s j =>
          if j ∈ s.inFlight then finishWorker items limit worker j s else s) s) := by
    intro sch
    induction sch with
    | nil => intro s hs; exact hs
    | cons j rest ih =>
      intro s hs
      rw [List.foldl_cons]
      by_cases hj : j ∈ s.inFlight
      · rw [if_pos hj]
        exact ih _ (finishWorker_inv items limit worker j s hs hj)
      · rw [if_neg hj]
        exact ih _ hs
  exact hstep sched _
    (pump_inv items limit worker _ (coreInv_init items limit worker) rfl)

/-! ## Claim C3 -/

/-- C3: for every items array, positive limit and worker, whenever a run of
`mapLimit` resolves (under any completion order the scheduler produces), the
result array has length `items.length` and cell `i` holds
`worker items[i] i` — completion order never reorders cells; and for
`items = []` the run resolves immediately to `[]` with no worker started
(the final state is independent of `worker`, which is never applied). -/
theorem mapLimit_positional {T R : Type} (items : List T) (limit : Nat)
    (worker : T → Nat → R) (sched : List Nat) (_hpos : 0 < limit) :
    ((mapLimitRun items limit worker sched).done = true →
      (mapLimitRun items limit worker sched).result =
        (List.range items.length).map (wval items worker)
      ∧ (mapLimitRun items limit worker sched).result.length = items.length)
    ∧ (items = [] →
      mapLimitRun items limit worker sched = ⟨0, [], [], true⟩) := by
  constructor
  · intro hdone
    obtain ⟨⟨h1, h2, h3, h4, h5, h6⟩, _, hdprops⟩ :=
      mapLimitRun_inv items limit worker sched
    obtain ⟨hall, hempty⟩ := hdprops hdone
    constructor
    · apply List.ext_getElem?
      intro j
      by_cases hjn : j < items.length
      · rw [h6 j hjn, List.getElem?_map, List.getElem?_range hjn]
        rw [if_pos ⟨by omega, by rw [hempty]; exact List.not_mem_nil j⟩]
        rfl
      · rw [List.getElem?_eq_none
            (show (mapLimitRun items limit worker sched).result.length ≤ j by
              rw [h1]; omega),
          List.getElem?_eq_none
            (show ((List.range items.length).map (wval items worker)).length ≤ j by
              simp only [List.length_map, List.length_range]; omega)]
    · exact h1
  · intro hemp
    subst hemp
    have hinit : pump limit (List.length ([] : List T))
        (initState R (List.length ([] : List T))) = ⟨0, [], [], true⟩ := rfl
    rw [mapLimitRun, hinit]
    induction sched with
    | nil => rfl
    | cons j rest ih => simpa using ih

/-- C3 witness: three items, limit 2, and the scheduler finishing worker 1
before worker 0 — the resolved array is still positionally aligned. -/
theorem mapLimit_positional_witness :
    (mapLimitRun [10, 20, 30] 2 (fun a i => a + i) [1, 0, 2]).result =
      [some 10, some 21, some 32]
    ∧ (mapLimitRun ([] : List Nat) 2 (fun a i => a + i) [0, 1]) = ⟨0, [], [], true⟩ := by
  have h := mapLimit_positional [10, 20, 30] 2 (fun a i => a + i) [1, 0, 2] (by decide)
  have h2 := mapLimit_positional ([] : List Nat) 2 (fun a i => a + i) [0, 1] (by decide)
  refine ⟨?_, h2.2 rfl⟩
  rw [(h.1 (by decide)).1]
  decide

/-! ## Claim C4 -/

/-- C4: at every reachable point of a `mapLimit` run (i.e. after the initial
`pump` and any scheduler prefix) at most `limit` workers are in flight;
while undispatched items remain the pool is kept exactly full (a completing
worker is immediately replaced); and the in-flight indices are strictly
increasing and below the dispatch counter — workers are started in
input-index order (`startWorkers` hands out `idx = i++` consecutively). -/
theorem mapLimit_bounded {T R : Type} (items : List T) (limit : Nat)
    (worker : T → Nat → R) (sched : List Nat) (_hpos : 0 < limit) :
    (mapLimitRun items limit worker sched).inFlight.length ≤ limit
    ∧ ((mapLimitRun items limit worker sched).nextIdx < items.length →
        (mapLimitRun items limit worker sched).inFlight.length = limit)
    ∧ List.Pairwise (· < ·) (mapLimitRun items limit worker sched).inFlight
    ∧ (∀ j ∈ (mapLimitRun items limit worker sched).inFlight,
        j < (mapLimitRun items limit worker sched).nextIdx) := by
  obtain ⟨⟨_, _, h3, h4, h5, _⟩, heager, _⟩ := mapLimitRun_inv items limit worker sched
  exact ⟨h3, heager, h4, h5⟩

/-- C4 witness: five items, limit 2, one completion — the pool is refilled
at once and never exceeds the limit. -/
theorem mapLimit_bounded_witness :
    (mapLimitRun [10, 20, 30, 40, 50] 2 (fun a i => a + i) [1]).inFlight.length ≤ 2
    ∧ ((mapLimitRun [10, 20, 30, 40, 50] 2 (fun a i => a + i) [1]).nextIdx < 5 →
        (mapLimitRun [10, 20, 30, 40, 50] 2 (fun a i => a + i) [1]).inFlight.length = 2)
    ∧ List.Pairwise (· < ·)
        (mapLimitRun [10, 20, 30, 40, 50] 2 (fun a i => a + i) [1]).inFlight
    ∧ (∀ j ∈ (mapLimitRun [10, 20, 30, 40, 50] 2 (fun a i => a + i) [1]).inFlight,
        j < (mapLimitRun [10, 20, 30, 40, 50] 2 (fun a i => a + i) [1]).nextIdx) :=
  mapLimit_bounded [10, 20, 30, 40, 50] 2 (fun a i => a + i) [1] (by decide)

end LinearSnap
